import Mathlib

/-!
Verification development for the lattice-morph tessellation and quantization
core (src/utils/tessellation.js, src/utils/quantization.js, src/App.jsx).

Numeric conventions: JavaScript double arithmetic is modelled exactly over ℚ
(every literal in the source is a decimal fraction), array indices and pixel
coordinates over ℤ/ℕ.  The external d3-delaunay library is modelled by the
abstract PlanarSubdivision interface of the specification (points,
cellPolygon, contains); the external quantize library is an abstract palette
builder.  Math.sin is modelled by an explicit sine oracle argument, since its
value is a platform float; every statement about the pseudo-random pattern is
parametric in that oracle.
-/

namespace LatticeMorph

/-- RGB triple, 8-bit channels as naturals. -/
structure Rgb where
  r : ℕ
  g : ℕ
  b : ℕ
deriving DecidableEq, Repr

/-- RGBA quad, 8-bit channels as naturals. -/
structure Rgba where
  r : ℕ
  g : ℕ
  b : ℕ
  a : ℕ
deriving DecidableEq, Repr

/-! ## tessellation.js -/

/-- Abstract interface of the d3-delaunay Voronoi object as used by
relaxPoints, following the PlanarSubdivision interface of the spec:
site list (delaunay.points, paired), cellPolygon and the contains
predicate.  The library itself is external to the repository. -/
structure Voronoi where
  points : List (ℚ × ℚ)
  cellPolygon : ℕ → Option (List (ℚ × ℚ))
  voronoiContains : ℕ → ℤ → ℤ → Bool

/-- Integer range lo..hi inclusive, in increasing order; empty when hi < lo.
Models a JS loop for (x = lo; x <= hi; x++). -/
def intRangeIcc (lo hi : ℤ) : List ℤ :=
  (List.range (hi + 1 - lo).toNat).map (fun (k : ℕ) => lo + (k : ℤ))

/-- Bounding box scan of relaxPoints (tessellation.js lines 52-58): fold over
the polygon vertices starting from (width, 0, height, 0), returning
(minX, maxX, minY, maxY). -/
def polyBounds (w h : ℕ) (poly : List (ℚ × ℚ)) : ℚ × ℚ × ℚ × ℚ :=
  poly.foldl
    (fun acc pt =>
      (min acc.1 pt.1, max acc.2.1 pt.1, min acc.2.2.1 pt.2, max acc.2.2.2 pt.2))
    ((w : ℚ), 0, (h : ℚ), 0)

/-- Clamped integer bounding box of relaxPoints (tessellation.js lines 60-63):
minX = floor (max 0 minX), maxX = ceil (min (width-1) maxX), likewise for y.
Returns (minX, maxX, minY, maxY). -/
def clampedBounds (w h : ℕ) (poly : List (ℚ × ℚ)) : ℤ × ℤ × ℤ × ℤ :=
  let b := polyBounds w h poly
  (⌊max 0 b.1⌋, ⌈min ((w : ℚ) - 1) b.2.1⌉, ⌊max 0 b.2.2.1⌋, ⌈min ((h : ℚ) - 1) b.2.2.2⌉)

/-- Pixel list scanned by the relaxPoints double loop (lines 66-67): y outer
from minY to maxY, x inner from minX to maxX; pairs (x, y). -/
def boxPixels (w h : ℕ) (poly : List (ℚ × ℚ)) : List (ℤ × ℤ) :=
  let b := clampedBounds w h poly
  (intRangeIcc b.2.2.1 b.2.2.2).flatMap fun y =>
    (intRangeIcc b.1 b.2.1).map fun x => (x, y)

/-- Weight of a pixel (tessellation.js lines 69-78): the flat RGBA buffer is
read at idx = (y*width + x)*4, and weight = 1 - (r+g+b)/(3*255).  The scan
only ever reaches x, y >= 0, where toNat indexing agrees with the source. -/
def pixWeight (pd : ℕ → ℕ) (w : ℕ) (x y : ℤ) : ℚ :=
  let idx := (y.toNat * w + x.toNat) * 4
  1 - ((pd idx + pd (idx + 1) + pd (idx + 2) : ℕ) : ℚ) / (3 * 255)

/-- Accumulation step of the relaxPoints pixel loop (lines 68-83) on the
state (xSum, ySum, weightSum). -/
def relaxStep (v : Voronoi) (pd : ℕ → ℕ) (w : ℕ) (i : ℕ)
    (s : ℚ × ℚ × ℚ) (p : ℤ × ℤ) : ℚ × ℚ × ℚ :=
  if v.voronoiContains i p.1 p.2 then
    ((s.1 + (p.1 : ℚ) * pixWeight pd w p.1 p.2,
      s.2.1 + (p.2 : ℚ) * pixWeight pd w p.1 p.2,
      s.2.2 + pixWeight pd w p.1 p.2))
  else s

/-- Body of the relaxPoints site loop (tessellation.js lines 44-92) for a
site i whose cellPolygon is poly: accumulate over the clamped bounding box,
then either the weighted centroid (weightSum > 0) or the previous
coordinates of the site. -/
def relaxSite (v : Voronoi) (pd : ℕ → ℕ) (w h : ℕ) (i : ℕ)
    (poly : List (ℚ × ℚ)) : ℚ × ℚ :=
  let acc := (boxPixels w h poly).foldl (relaxStep v pd w i) (0, 0, 0)
  if acc.2.2 > 0 then (acc.1 / acc.2.2, acc.2.1 / acc.2.2)
  else v.points.getD i (0, 0)

/-- relaxPoints (tessellation.js lines 39-95): loop over all siteCount sites,
skipping a site when its cellPolygon is missing (the continue on line 45),
otherwise pushing the relaxed position. -/
def relaxPoints (v : Voronoi) (pd : ℕ → ℕ) (w h : ℕ) : List (ℚ × ℚ) :=
  (List.range v.points.length).filterMap fun i =>
    (v.cellPolygon i).map fun poly => relaxSite v pd w h i poly

/-- Alternation patterns of getAlternationIndex (tessellation.js line 101):
the string cases checkerboard, rows, cols, random, sequence and the default
branch. -/
inductive Pattern where
  | checkerboard
  | rows
  | cols
  | random
  | sequence
  | other
deriving DecidableEq, Repr

/-- safeMod of getAlternationIndex (line 108): ((n % m) + m) % m with the JS
truncated remainder. -/
def safeMod (n m : ℤ) : ℤ :=
  (n.tmod m + m).tmod m

/-- getAlternationIndex (tessellation.js lines 105-126).  sinO is the sine
oracle standing for Math.sin; the literals 12.9898, 78.233 and 43758.5453
are the exact decimal fractions of the source. -/
def getAlternationIndex (sinO : ℚ → ℚ) (col row : ℤ) (pattern : Pattern)
    (imageCount : ℤ) : ℤ :=
  if imageCount ≤ 1 then 0
  else
    match pattern with
    | .checkerboard => safeMod (col + row) imageCount
    | .rows => safeMod row imageCount
    | .cols => safeMod col imageCount
    | .random =>
        ((⌊sinO ((col : ℚ) * (129898 / 10000) + (row : ℚ) * (78233 / 1000))
            * (437585453 / 10000)⌋).natAbs : ℤ).tmod imageCount
    | .sequence => safeMod (col + row * 10) imageCount
    | .other => 0

/-! ## Helper lemmas for the relaxation scan -/

lemma mem_intRangeIcc {lo hi x : ℤ} : x ∈ intRangeIcc lo hi ↔ lo ≤ x ∧ x ≤ hi := by
  unfold intRangeIcc
  simp only [List.mem_map, List.mem_range]
  constructor
  · rintro ⟨k, hk, rfl⟩
    omega
  · rintro ⟨h1, h2⟩
    exact ⟨(x - lo).toNat, by omega, by omega⟩

lemma pairwise_intRangeIcc (lo hi : ℤ) : (intRangeIcc lo hi).Pairwise (· < ·) := by
  unfold intRangeIcc
  rw [List.pairwise_map]
  exact (List.pairwise_lt_range _).imp (by omega)

lemma nodup_intRangeIcc (lo hi : ℤ) : (intRangeIcc lo hi).Nodup :=
  (pairwise_intRangeIcc lo hi).imp ne_of_lt

lemma toFinset_intRangeIcc (lo hi : ℤ) : (intRangeIcc lo hi).toFinset = Finset.Icc lo hi := by
  apply Finset.ext
  intro x
  rw [List.mem_toFinset, mem_intRangeIcc, Finset.mem_Icc]

lemma sum_intRangeIcc {M : Type*} [AddCommMonoid M] (f : ℤ → M) (lo hi : ℤ) :
    ((intRangeIcc lo hi).map f).sum = (Finset.Icc lo hi).sum f := by
  rw [← toFinset_intRangeIcc lo hi, List.sum_toFinset f (nodup_intRangeIcc lo hi)]

lemma sum_flatMapList {α : Type*} {M : Type*} [AddCommMonoid M] (f : α → List M) :
    ∀ l : List α, (l.flatMap f).sum = (l.map fun a => (f a).sum).sum
  | [] => rfl
  | a :: l => by
    rw [List.flatMap_cons, List.sum_append, sum_flatMapList f l, List.map_cons, List.sum_cons]

/-- Weighted contribution of one pixel to the x accumulator, with the
containment test of the scan. -/
def xContrib (v : Voronoi) (pd : ℕ → ℕ) (w : ℕ) (i : ℕ) (p : ℤ × ℤ) : ℚ :=
  if v.voronoiContains i p.1 p.2 then (p.1 : ℚ) * pixWeight pd w p.1 p.2 else 0

/-- Weighted contribution of one pixel to the y accumulator. -/
def yContrib (v : Voronoi) (pd : ℕ → ℕ) (w : ℕ) (i : ℕ) (p : ℤ × ℤ) : ℚ :=
  if v.voronoiContains i p.1 p.2 then (p.2 : ℚ) * pixWeight pd w p.1 p.2 else 0

/-- Contribution of one pixel to the weight accumulator. -/
def wContrib (v : Voronoi) (pd : ℕ → ℕ) (w : ℕ) (i : ℕ) (p : ℤ × ℤ) : ℚ :=
  if v.voronoiContains i p.1 p.2 then pixWeight pd w p.1 p.2 else 0

lemma foldl_relaxStep (v : Voronoi) (pd : ℕ → ℕ) (w : ℕ) (i : ℕ) :
    ∀ (l : List (ℤ × ℤ)) (s : ℚ × ℚ × ℚ),
      l.foldl (relaxStep v pd w i) s =
        (s.1 + (l.map (xContrib v pd w i)).sum,
         s.2.1 + (l.map (yContrib v pd w i)).sum,
         s.2.2 + (l.map (wContrib v pd w i)).sum)
  | [], s => by simp
  | p :: l, s => by
    rw [List.foldl_cons, foldl_relaxStep v pd w i l (relaxStep v pd w i s p)]
    simp only [List.map_cons, List.sum_cons]
    unfold relaxStep xContrib yContrib wContrib
    by_cases hc : v.voronoiContains i p.1 p.2 <;>
      simp only [hc, if_true, if_false, Bool.false_eq_true] <;>
      exact Prod.ext (by ring) (Prod.ext (by ring) (by ring))

/-- Integer pixel box of a cell as a finite set: the clamped bounding box
[minX, maxX] x [minY, maxY]. -/
def cellBox (w h : ℕ) (poly : List (ℚ × ℚ)) : Finset (ℤ × ℤ) :=
  let b := clampedBounds w h poly
  Finset.Icc b.1 b.2.1 ×ˢ Finset.Icc b.2.2.1 b.2.2.2

/-- Integer pixel coordinates of the clamped bounding box lying inside cell
i according to the contains predicate. -/
def cellPixels (v : Voronoi) (w h : ℕ) (i : ℕ) (poly : List (ℚ × ℚ)) :
    Finset (ℤ × ℤ) :=
  (cellBox w h poly).filter fun p => v.voronoiContains i p.1 p.2 = true

/-- Total brightness-derived weight of the pixels of cell i. -/
def cellWeightSum (v : Voronoi) (pd : ℕ → ℕ) (w h : ℕ) (i : ℕ)
    (poly : List (ℚ × ℚ)) : ℚ :=
  (cellPixels v w h i poly).sum fun p => pixWeight pd w p.1 p.2

/-- Weighted sum of x coordinates of the pixels of cell i. -/
def cellXSum (v : Voronoi) (pd : ℕ → ℕ) (w h : ℕ) (i : ℕ)
    (poly : List (ℚ × ℚ)) : ℚ :=
  (cellPixels v w h i poly).sum fun p => (p.1 : ℚ) * pixWeight pd w p.1 p.2

/-- Weighted sum of y coordinates of the pixels of cell i. -/
def cellYSum (v : Voronoi) (pd : ℕ → ℕ) (w h : ℕ) (i : ℕ)
    (poly : List (ℚ × ℚ)) : ℚ :=
  (cellPixels v w h i poly).sum fun p => (p.2 : ℚ) * pixWeight pd w p.1 p.2

lemma sum_boxPixels (w h : ℕ) (poly : List (ℚ × ℚ)) (g : ℤ × ℤ → ℚ) :
    ((boxPixels w h poly).map g).sum = (cellBox w h poly).sum g := by
  unfold boxPixels cellBox
  rw [List.map_flatMap, sum_flatMapList, Finset.sum_product, Finset.sum_comm]
  rw [← sum_intRangeIcc (fun y => (Finset.Icc (clampedBounds w h poly).1
    (clampedBounds w h poly).2.1).sum fun x => g (x, y))]
  congr 1
  apply List.map_congr_left
  intro y _
  rw [List.map_map, ← sum_intRangeIcc (fun x => g (x, y))]
  rfl

/-- The relaxSite loop body computes the weighted centroid of cellPixels
when the total weight is positive, and falls back to the previous site
coordinates otherwise. -/
lemma relaxSite_spec (v : Voronoi) (pd : ℕ → ℕ) (w h : ℕ) (i : ℕ)
    (poly : List (ℚ × ℚ)) :
    relaxSite v pd w h i poly =
      if 0 < cellWeightSum v pd w h i poly then
        (cellXSum v pd w h i poly / cellWeightSum v pd w h i poly,
         cellYSum v pd w h i poly / cellWeightSum v pd w h i poly)
      else v.points.getD i (0, 0) := by
  have hx : cellXSum v pd w h i poly =
      ((boxPixels w h poly).map (xContrib v pd w i)).sum := by
    rw [sum_boxPixels]
    unfold cellXSum cellPixels xContrib
    rw [Finset.sum_filter]
  have hy : cellYSum v pd w h i poly =
      ((boxPixels w h poly).map (yContrib v pd w i)).sum := by
    rw [sum_boxPixels]
    unfold cellYSum cellPixels yContrib
    rw [Finset.sum_filter]
  have hw : cellWeightSum v pd w h i poly =
      ((boxPixels w h poly).map (wContrib v pd w i)).sum := by
    rw [sum_boxPixels]
    unfold cellWeightSum cellPixels wContrib
    rw [Finset.sum_filter]
  unfold relaxSite
  rw [foldl_relaxStep, hx, hy, hw]
  simp only [zero_add]

lemma filterMap_eq_map_of_forall {α β : Type*} {f : α → Option β} {g : α → β} :
    ∀ l : List α, (∀ a ∈ l, f a = some (g a)) → l.filterMap f = l.map g
  | [], _ => rfl
  | a :: l, H => by
    rw [List.filterMap_cons, H a (by simp), List.map_cons,
      filterMap_eq_map_of_forall l fun b hb => H b (by simp [hb])]

/-- When every site in range has a cell polygon, relaxPoints is exactly the
map of relaxSite over the site indices. -/
lemma relaxPoints_eq_map (v : Voronoi) (pd : ℕ → ℕ) (w h : ℕ)
    (polys : ℕ → List (ℚ × ℚ))
    (hall : ∀ i, i < v.points.length → v.cellPolygon i = some (polys i)) :
    relaxPoints v pd w h =
      (List.range v.points.length).map fun i => relaxSite v pd w h i (polys i) := by
  unfold relaxPoints
  apply filterMap_eq_map_of_forall
  intro i hi
  rw [hall i (List.mem_range.mp hi)]
  rfl

lemma getD_map_range {β : Type*} (g : ℕ → β) (n i : ℕ) (d : β) (hi : i < n) :
    (((List.range n).map g).getD i d) = g i := by
  rw [List.getD_eq_getElem?_getD, List.getElem?_map, List.getElem?_range hi]
  rfl

lemma pixWeight_nonneg (pd : ℕ → ℕ) (w : ℕ) (x y : ℤ) (hb : ∀ j, pd j ≤ 255) :
    0 ≤ pixWeight pd w x y := by
  unfold pixWeight
  rw [sub_nonneg]
  apply div_le_one_of_le₀
  · have h0 := hb ((y.toNat * w + x.toNat) * 4)
    have h1 := hb ((y.toNat * w + x.toNat) * 4 + 1)
    have h2 := hb ((y.toNat * w + x.toNat) * 4 + 2)
    have : (pd ((y.toNat * w + x.toNat) * 4) + pd ((y.toNat * w + x.toNat) * 4 + 1)
        + pd ((y.toNat * w + x.toNat) * 4 + 2)) ≤ 765 := by omega
    calc ((pd ((y.toNat * w + x.toNat) * 4) + pd ((y.toNat * w + x.toNat) * 4 + 1)
        + pd ((y.toNat * w + x.toNat) * 4 + 2) : ℕ) : ℚ) ≤ (765 : ℕ) := by
          exact_mod_cast this
      _ = 3 * 255 := by norm_num
  · norm_num

lemma cellWeightSum_nonneg (v : Voronoi) (pd : ℕ → ℕ) (w h : ℕ) (i : ℕ)
    (poly : List (ℚ × ℚ)) (hb : ∀ j, pd j ≤ 255) :
    0 ≤ cellWeightSum v pd w h i poly :=
  Finset.sum_nonneg fun p _ => pixWeight_nonneg pd w p.1 p.2 hb

/-! ## Claim theorems for relaxPoints -/

/-- C1. For every site of a subdivision whose cell polygon exists, the
relaxed point returned for that site is the weighted centroid
(sum of weight*x / sum of weight, sum of weight*y / sum of weight) over the
integer pixels of the clamped cell bounding box that contains reports inside
the cell, with weight 1 - (R+G+B)/(3*255); when the weight sum is zero the
previous coordinates of the site are returned unchanged (no NaN: the
division is never taken in that case). -/
theorem c1_relax_weighted_centroid (v : Voronoi) (pd : ℕ → ℕ) (w h : ℕ)
    (polys : ℕ → List (ℚ × ℚ)) (i : ℕ)
    (hb : ∀ j, pd j ≤ 255)
    (hall : ∀ j, j < v.points.length → v.cellPolygon j = some (polys j))
    (hi : i < v.points.length) :
    (cellWeightSum v pd w h i (polys i) ≠ 0 →
      (relaxPoints v pd w h).getD i (0, 0) =
        (cellXSum v pd w h i (polys i) / cellWeightSum v pd w h i (polys i),
         cellYSum v pd w h i (polys i) / cellWeightSum v pd w h i (polys i))) ∧
    (cellWeightSum v pd w h i (polys i) = 0 →
      (relaxPoints v pd w h).getD i (0, 0) = v.points.getD i (0, 0)) := by
  rw [relaxPoints_eq_map v pd w h polys hall, getD_map_range _ _ _ _ hi,
    relaxSite_spec]
  constructor
  · intro hne
    rw [if_pos (lt_of_le_of_ne (cellWeightSum_nonneg v pd w h i (polys i) hb)
      (Ne.symm hne))]
  · intro heq
    rw [if_neg]
    rw [heq]
    exact lt_irrefl 0

/-- Witness for C1 at a concrete instance: one site at (0,0) on a 2x2 black
buffer with a cell polygon spanning the canvas; the weight sum is 4 and the
relaxed point is the centroid (1/2, 1/2). -/
theorem c1_relax_weighted_centroid_witness :
    cellWeightSum ⟨[(0, 0)], fun _ => some [(0, 0), (2, 0), (0, 2)], fun _ _ _ => true⟩
        (fun _ => 0) 2 2 0 [(0, 0), (2, 0), (0, 2)] = 4 ∧
    (relaxPoints ⟨[(0, 0)], fun _ => some [(0, 0), (2, 0), (0, 2)], fun _ _ _ => true⟩
        (fun _ => 0) 2 2).getD 0 (0, 0) = (1 / 2, 1 / 2) := by
  have hws : cellWeightSum ⟨[(0, 0)], fun _ => some [(0, 0), (2, 0), (0, 2)], fun _ _ _ => true⟩
      (fun _ => 0) 2 2 0 [(0, 0), (2, 0), (0, 2)] = 4 := by
    unfold cellWeightSum cellPixels cellBox clampedBounds polyBounds pixWeight
    norm_num [Int.floor_eq_iff, Int.ceil_eq_iff]
    simp
    norm_num
  refine ⟨hws, ?_⟩
  have h := (c1_relax_weighted_centroid
    ⟨[(0, 0)], fun _ => some [(0, 0), (2, 0), (0, 2)], fun _ _ _ => true⟩
    (fun _ => 0) 2 2 (fun _ => [(0, 0), (2, 0), (0, 2)]) 0
    (fun _ => Nat.zero_le 255) (fun _ _ => rfl) (by norm_num)).1 (by rw [hws]; norm_num)
  rw [h, hws]
  have hxs : cellXSum ⟨[(0, 0)], fun _ => some [(0, 0), (2, 0), (0, 2)], fun _ _ _ => true⟩
      (fun _ => 0) 2 2 0 [(0, 0), (2, 0), (0, 2)] = 2 := by
    have hIcc : Finset.Icc (0 : ℤ) 1 = {0, 1} := by
      ext x
      simp only [Finset.mem_Icc, Finset.mem_insert, Finset.mem_singleton]
      omega
    unfold cellXSum cellPixels cellBox clampedBounds polyBounds pixWeight
    norm_num [Int.floor_eq_iff, Int.ceil_eq_iff]
    rw [hIcc, Finset.sum_product]
    norm_num [Finset.sum_pair (show (0 : ℤ) ≠ 1 by norm_num)]
  have hys : cellYSum ⟨[(0, 0)], fun _ => some [(0, 0), (2, 0), (0, 2)], fun _ _ _ => true⟩
      (fun _ => 0) 2 2 0 [(0, 0), (2, 0), (0, 2)] = 2 := by
    have hIcc : Finset.Icc (0 : ℤ) 1 = {0, 1} := by
      ext x
      simp only [Finset.mem_Icc, Finset.mem_insert, Finset.mem_singleton]
      omega
    unfold cellYSum cellPixels cellBox clampedBounds polyBounds pixWeight
    norm_num [Int.floor_eq_iff, Int.ceil_eq_iff]
    rw [hIcc, Finset.sum_product]
    norm_num [Finset.sum_pair (show (0 : ℤ) ≠ 1 by norm_num)]
  rw [hxs, hys]
  norm_num

/-- C2. For a subdivision whose sites all have cell polygons (the
PlanarSubdivision contract: cellPolygon is none only out of range),
relaxPoints returns exactly one point per site, the point at index i being
the relaxed position of site i; the output is a fresh list, so the old
point set is replaced wholesale and the index stays the site identifier. -/
theorem c2_relax_point_per_site (v : Voronoi) (pd : ℕ → ℕ) (w h : ℕ)
    (polys : ℕ → List (ℚ × ℚ))
    (hall : ∀ j, j < v.points.length → v.cellPolygon j = some (polys j)) :
    (relaxPoints v pd w h).length = v.points.length ∧
    ∀ i, i < v.points.length →
      (relaxPoints v pd w h).getD i (0, 0) = relaxSite v pd w h i (polys i) := by
  rw [relaxPoints_eq_map v pd w h polys hall]
  constructor
  · rw [List.length_map, List.length_range]
  · intro i hi
    exact getD_map_range _ _ _ _ hi

/-- Witness for C2: a two-site subdivision on a 1x1 canvas; relaxPoints
returns exactly two points, one per site, in site order. -/
theorem c2_relax_point_per_site_witness :
    (relaxPoints ⟨[(0, 0), (1, 1)], fun _ => some [(0, 0), (1, 0), (0, 1)],
        fun i _ _ => i = 0⟩ (fun _ => 0) 1 1).length = 2 ∧
    ∀ i, i < 2 →
      (relaxPoints ⟨[(0, 0), (1, 1)], fun _ => some [(0, 0), (1, 0), (0, 1)],
          fun i _ _ => i = 0⟩ (fun _ => 0) 1 1).getD i (0, 0) =
        relaxSite ⟨[(0, 0), (1, 1)], fun _ => some [(0, 0), (1, 0), (0, 1)],
          fun i _ _ => i = 0⟩ (fun _ => 0) 1 1 i [(0, 0), (1, 0), (0, 1)] :=
  c2_relax_point_per_site
    ⟨[(0, 0), (1, 1)], fun _ => some [(0, 0), (1, 0), (0, 1)], fun i _ _ => i = 0⟩
    (fun _ => 0) 1 1 (fun _ => [(0, 0), (1, 0), (0, 1)]) (fun _ _ => rfl)

/-! ## Claim theorems for getAlternationIndex -/

lemma neg_tmod_eq (a m : ℤ) : (-a).tmod m = -(a.tmod m) := by
  rw [Int.tmod_def, Int.tmod_def, Int.neg_tdiv]
  ring

lemma neg_lt_tmod (a : ℤ) {m : ℤ} (hm : 0 < m) : -m < a.tmod m := by
  rcases le_or_lt 0 a with ha | ha
  · have := Int.tmod_nonneg m ha
    omega
  · have h1 : (-a).tmod m < m := Int.tmod_lt_of_pos (-a) hm
    rw [neg_tmod_eq] at h1
    omega

/-- The safeMod of the source agrees with the mathematical non-negative
modulo for every positive modulus. -/
lemma safeMod_eq_emod (n m : ℤ) (hm : 0 < m) : safeMod n m = n % m := by
  unfold safeMod
  have h0 : 0 ≤ n.tmod m + m := by
    have := neg_lt_tmod n hm
    omega
  rw [Int.tmod_eq_emod h0 (le_of_lt hm), Int.tmod_def]
  have h1 : n - m * n.tdiv m + m = n + m * (1 - n.tdiv m) := by ring
  rw [h1, Int.add_mul_emod_self_left]

/-- C7. For every sourceCount at least 2, the Checkerboard pattern returns
(col+row) mod sourceCount, Rows returns row mod sourceCount and Cols returns
col mod sourceCount, where mod is the non-negative modulo ((n % m) + m) % m
(the mathematical emod, non-negative also for negative col or row); and for
sourceCount 1 every pattern returns 0. -/
theorem c7_grid_patterns (sinO : ℚ → ℚ) (col row n : ℤ) (p : Pattern)
    (hn : 2 ≤ n) :
    getAlternationIndex sinO col row .checkerboard n = (col + row) % n ∧
    getAlternationIndex sinO col row .rows n = row % n ∧
    getAlternationIndex sinO col row .cols n = col % n ∧
    getAlternationIndex sinO col row p 1 = 0 := by
  have hn1 : ¬ n ≤ 1 := by omega
  refine ⟨?_, ?_, ?_, ?_⟩
  · show (if n ≤ 1 then 0 else safeMod (col + row) n) = _
    rw [if_neg hn1]
    exact safeMod_eq_emod _ _ (by omega)
  · show (if n ≤ 1 then 0 else safeMod row n) = _
    rw [if_neg hn1]
    exact safeMod_eq_emod _ _ (by omega)
  · show (if n ≤ 1 then 0 else safeMod col n) = _
    rw [if_neg hn1]
    exact safeMod_eq_emod _ _ (by omega)
  · unfold getAlternationIndex
    rw [if_pos (le_refl (1 : ℤ))]

/-- Witness for C7 at sourceCount 3 with a negative column: Checkerboard at
(2,5) gives 1, Rows at row 4 gives 1, Cols at col -5 gives 1, and any
pattern with a single source gives 0. -/
theorem c7_grid_patterns_witness :
    (2 : ℤ) ≤ 3 ∧
    getAlternationIndex (fun _ => 0) 2 5 .checkerboard 3 = 1 ∧
    getAlternationIndex (fun _ => 0) (-5) 4 .rows 3 = 1 ∧
    getAlternationIndex (fun _ => 0) (-5) 4 .cols 3 = 1 ∧
    getAlternationIndex (fun _ => 0) (-5) 4 .random 1 = 0 := by
  have h1 := c7_grid_patterns (fun _ => 0) 2 5 3 .random (by norm_num)
  have h2 := c7_grid_patterns (fun _ => 0) (-5) 4 3 .random (by norm_num)
  refine ⟨by norm_num, ?_, ?_, ?_, h2.2.2.2⟩
  · rw [h1.1]
    decide
  · rw [h2.2.1]
    decide
  · rw [h2.2.2.1]
    decide

/-- The pseudo-random index exactly as the specification words it: floor of
the absolute value of the sine, scaled, then mod. -/
def randomIndexSpec (sinO : ℚ → ℚ) (col row n : ℤ) : ℤ :=
  (⌊|sinO ((col : ℚ) * (129898 / 10000) + (row : ℚ) * (78233 / 1000))|
      * (437585453 / 10000)⌋).tmod n

/-- C4 counterexample: with a sine oracle returning -1/2 (Math.sin does take
negative values on integer grid arguments), the source computes
abs(floor(-21879.27265)) mod 2 = 21880 mod 2 = 0, while the claimed formula
floor(abs(sin)*43758.5453) mod 2 = 21879 mod 2 = 1. -/
theorem c4_random_counterexample :
    getAlternationIndex (fun _ => -1 / 2) 0 0 .random 2 = 0 ∧
    randomIndexSpec (fun _ => -1 / 2) 0 0 2 = 1 := by
  have hf1 : ⌊(-1 / 2 : ℚ) * (437585453 / 10000)⌋ = -21880 := by
    rw [Int.floor_eq_iff]
    norm_num
  have hf2 : ⌊|(-1 / 2 : ℚ)| * (437585453 / 10000)⌋ = 21879 := by
    rw [show |(-1 / 2 : ℚ)| = 1 / 2 by rw [abs_of_nonpos (by norm_num)]; norm_num,
      Int.floor_eq_iff]
    norm_num
  constructor
  · show (if (2 : ℤ) ≤ 1 then 0
      else ((⌊(-1 / 2 : ℚ) * (437585453 / 10000)⌋).natAbs : ℤ).tmod 2) = 0
    rw [if_neg (by norm_num), hf1]
    decide
  · unfold randomIndexSpec
    rw [hf2]
    decide

/-- C4 amended: the PseudoRandom pattern returns
abs(floor(sin(col*12.9898 + row*78.233) * 43758.5453)) mod sourceCount — the
absolute value is applied after the floor.  For a non-negative sine value
this agrees with the claimed floor(abs(sin)*43758.5453) mod sourceCount; for
a negative sine value it equals ceil(abs(sin)*43758.5453) mod sourceCount,
one more (before the modulo) whenever the scaled sine is not an integer.
Same inputs and oracle always yield the same index, the functions being
pure. -/
theorem c4_random_amended (sinO : ℚ → ℚ) (col row n : ℤ) (hn : 2 ≤ n) :
    getAlternationIndex sinO col row .random n =
      ((⌊sinO ((col : ℚ) * (129898 / 10000) + (row : ℚ) * (78233 / 1000))
          * (437585453 / 10000)⌋).natAbs : ℤ).tmod n ∧
    (0 ≤ sinO ((col : ℚ) * (129898 / 10000) + (row : ℚ) * (78233 / 1000)) →
      getAlternationIndex sinO col row .random n = randomIndexSpec sinO col row n) ∧
    (sinO ((col : ℚ) * (129898 / 10000) + (row : ℚ) * (78233 / 1000)) < 0 →
      getAlternationIndex sinO col row .random n =
        (⌈|sinO ((col : ℚ) * (129898 / 10000) + (row : ℚ) * (78233 / 1000))|
            * (437585453 / 10000)⌉).tmod n) := by
  have hn1 : ¬ n ≤ 1 := by omega
  have hcode : getAlternationIndex sinO col row .random n =
      ((⌊sinO ((col : ℚ) * (129898 / 10000) + (row : ℚ) * (78233 / 1000))
          * (437585453 / 10000)⌋).natAbs : ℤ).tmod n := by
    show (if n ≤ 1 then 0 else _) = _
    rw [if_neg hn1]
  refine ⟨hcode, ?_, ?_⟩
  · intro hpos
    rw [hcode]
    unfold randomIndexSpec
    rw [abs_of_nonneg hpos, Int.natAbs_of_nonneg]
    rw [Int.floor_nonneg]
    positivity
  · intro hneg
    rw [hcode, abs_of_neg hneg]
    have hle : sinO ((col : ℚ) * (129898 / 10000) + (row : ℚ) * (78233 / 1000))
        * (437585453 / 10000) ≤ 0 := by
      apply mul_nonpos_of_nonpos_of_nonneg (le_of_lt hneg)
      norm_num
    have hfl : ⌊sinO ((col : ℚ) * (129898 / 10000) + (row : ℚ) * (78233 / 1000))
        * (437585453 / 10000)⌋ ≤ 0 := by
      rw [← Int.floor_intCast (α := ℚ) 0]
      exact Int.floor_le_floor (by exact_mod_cast hle)
    rw [Int.ofNat_natAbs_of_nonpos hfl, neg_mul, Int.ceil_neg]

/-- Witness for C4 amended at a non-negative oracle value 1/2 and
sourceCount 2: hypothesis 2 <= 2 discharged, conclusion instantiated. -/
theorem c4_random_amended_witness :
    (2 : ℤ) ≤ 2 ∧
    (0 ≤ ((fun _ => 1 / 2 : ℚ → ℚ) ((0 : ℤ) * (129898 / 10000) + (0 : ℤ) * (78233 / 1000))) ∧
      getAlternationIndex (fun _ => 1 / 2) 0 0 .random 2 =
        randomIndexSpec (fun _ => 1 / 2) 0 0 2) :=
  ⟨by norm_num,
   by norm_num,
   (c4_random_amended (fun _ => 1 / 2) 0 0 2 (by norm_num)).2.1 (by norm_num)⟩

/-! ## quantization.js -/

/-- Opaque candidate extraction of quantizeImage (quantization.js lines
15-23): pixels with alpha below 128 are skipped, the kept entries are RGB
triples in buffer order. -/
def opaquePixels (pd : List Rgba) : List Rgb :=
  pd.filterMap fun q => if q.a < 128 then none else some ⟨q.r, q.g, q.b⟩

/-- Stride sampling loop (lines 33-36): for (i = 0; i < len; i += step)
push pixels[i]; the visited indices are k*step for k below ceil(len/step). -/
def strideSample (l : List Rgb) (step : ℕ) : List Rgb :=
  (List.range ((l.length + step - 1) / step)).map fun k => l.getD (k * step) ⟨0, 0, 0⟩

/-- Sampling stage of quantizeImage (lines 28-37): when more than 5000
opaque candidates exist, sample with stride floor(len/5000), else keep all. -/
def samplePixelsStage (pixels : List Rgb) : List Rgb :=
  if pixels.length > 5000 then strideSample pixels (pixels.length / 5000)
  else pixels

/-- Squared Euclidean RGB distance of the remap loop (lines 78-81). -/
def distSq (r g b : ℕ) (c : Rgb) : ℤ :=
  ((r : ℤ) - c.r) * ((r : ℤ) - c.r) + ((g : ℤ) - c.g) * ((g : ℤ) - c.g)
    + ((b : ℤ) - c.b) * ((b : ℤ) - c.b)

/-- One iteration of the nearest-palette search (lines 77-86): minDist
starts at Infinity, modelled as none; a strict improvement updates both
minDist and pColor. -/
def nearestStep (r g b : ℕ) (acc : Option ℤ × Rgb) (c : Rgb) : Option ℤ × Rgb :=
  match acc.1 with
  | none => (some (distSq r g b c), c)
  | some m => if distSq r g b c < m then (some (distSq r g b c), c) else acc

/-- Nearest-palette search of the remap loop (lines 73-86): pColor starts at
palette[0]. -/
def nearestColor (palette : List Rgb) (r g b : ℕ) : Rgb :=
  (palette.foldl (nearestStep r g b) (none, palette.headD ⟨0, 0, 0⟩)).2

/-- Per-pixel remap (lines 60-92): a pixel with alpha 0 is zeroed on all
four channels, any other pixel gets the nearest palette RGB and keeps its
alpha. -/
def remap (palette : List Rgb) (pd : List Rgba) : List Rgba :=
  pd.map fun q =>
    if q.a = 0 then ⟨0, 0, 0, 0⟩
    else
      let c := nearestColor palette q.r q.g q.b
      ⟨c.r, c.g, c.b, q.a⟩

/-- quantizeImage (quantization.js lines 10-95).  The external quantize
library is the abstract palette builder quantizeLib; none models a falsy
colorMap (line 41), some a colorMap whose palette() is the returned list. -/
def quantizeImage (quantizeLib : List Rgb → ℕ → Option (List Rgb))
    (pd : List Rgba) (colorCount : ℕ) : List Rgba :=
  if colorCount < 2 ∨ 256 < colorCount then pd
  else
    let pixels := opaquePixels pd
    if pixels.length = 0 then pd
    else
      match quantizeLib (samplePixelsStage pixels) colorCount with
      | none => pd
      | some palette => remap palette pd

/-! ## Claim theorems for quantizeImage -/

/-- C6. quantizeImage returns its input pixel-identical (the very same
buffer) whenever colorCount is outside [2, 256] or there is no opaque pixel
(alpha at least 128); no error is raised, the function being total. -/
theorem c6_quantize_noop (quantizeLib : List Rgb → ℕ → Option (List Rgb))
    (pd : List Rgba) (colorCount : ℕ)
    (hcase : (colorCount < 2 ∨ 256 < colorCount) ∨ opaquePixels pd = []) :
    quantizeImage quantizeLib pd colorCount = pd := by
  unfold quantizeImage
  rcases hcase with hcc | hop
  · rw [if_pos hcc]
  · rcases Decidable.em (colorCount < 2 ∨ 256 < colorCount) with hcc | hcc
    · rw [if_pos hcc]
    · rw [if_neg hcc]
      simp only [hop, List.length_nil]
      rfl

/-- Witness for C6: colorCount 1 (and separately colorCount 300, and a fully
transparent buffer) leaves the buffer unchanged. -/
theorem c6_quantize_noop_witness :
    ((1 < 2 ∨ 256 < 1) ∨ opaquePixels [⟨9, 9, 9, 255⟩] = []) ∧
    quantizeImage (fun _ _ => some [⟨0, 0, 0⟩]) [⟨9, 9, 9, 255⟩] 1 = [⟨9, 9, 9, 255⟩] ∧
    quantizeImage (fun _ _ => some [⟨0, 0, 0⟩]) [⟨9, 9, 9, 255⟩] 300 = [⟨9, 9, 9, 255⟩] ∧
    quantizeImage (fun _ _ => some [⟨0, 0, 0⟩]) [⟨9, 9, 9, 100⟩] 16 = [⟨9, 9, 9, 100⟩] :=
  ⟨Or.inl (Or.inl (by norm_num)),
   c6_quantize_noop _ _ 1 (Or.inl (Or.inl (by norm_num))),
   c6_quantize_noop _ _ 300 (Or.inl (Or.inr (by norm_num))),
   c6_quantize_noop _ _ 16 (Or.inr (by decide))⟩

lemma filterMap_replicate_some {α β : Type*} (f : α → Option β) (a : α) (b : β)
    (hf : f a = some b) : ∀ n, (List.replicate n a).filterMap f = List.replicate n b
  | 0 => rfl
  | n + 1 => by
    rw [List.replicate_succ, List.filterMap_cons, hf, List.replicate_succ,
      filterMap_replicate_some f a b hf n]

/-- C3 evaluation at the failing input: with 5001 opaque pixels the stride
is floor(5001/5000) = 1 and the palette-building sample keeps all 5001
pixels, exceeding the documented maximum of 5000 (the code comment says
max 5000 pixels). -/
theorem c3_sample_exceeds_5000 :
    (samplePixelsStage (opaquePixels (List.replicate 5001 ⟨0, 0, 0, 255⟩))).length = 5001 ∧
    5000 < 5001 := by
  have hop : opaquePixels (List.replicate 5001 ⟨0, 0, 0, 255⟩) =
      List.replicate 5001 ⟨0, 0, 0⟩ := by
    unfold opaquePixels
    exact filterMap_replicate_some _ _ _ (by norm_num) 5001
  constructor
  · rw [samplePixelsStage, hop]
    rw [if_pos (by rw [List.length_replicate]; norm_num)]
    unfold strideSample
    rw [List.length_map, List.length_range, List.length_replicate]
  · norm_num

lemma getD_mem_of_lt {α : Type*} (l : List α) (k : ℕ) (d : α) (hk : k < l.length) :
    l.getD k d ∈ l := by
  have he : l.getD k d = l[k] := by
    rw [List.getD_eq_getElem?_getD, List.getElem?_eq_getElem hk]
    rfl
  rw [he]
  exact List.getElem_mem hk

lemma getD_map_lt {α β : Type*} (f : α → β) (l : List α) (i : ℕ) (d : β) (d' : α)
    (hi : i < l.length) : (l.map f).getD i d = f (l.getD i d') := by
  rw [List.getD_eq_getElem?_getD, List.getElem?_map, List.getElem?_eq_getElem hi,
    List.getD_eq_getElem?_getD, List.getElem?_eq_getElem hi]
  rfl

/-- The nearest-palette fold either keeps its accumulator (no entry beats
the running minimum) or returns the first entry of the remaining list that
strictly beats the running minimum and every later improvement. -/
lemma foldl_nearestStep_cases (r g b : ℕ) :
    ∀ (l : List Rgb) (m : ℤ) (c0 : Rgb),
      (l.foldl (nearestStep r g b) (some m, c0) = (some m, c0) ∧
        ∀ x ∈ l, m ≤ distSq r g b x) ∨
      (∃ k, k < l.length ∧
        l.foldl (nearestStep r g b) (some m, c0) =
          (some (distSq r g b (l.getD k ⟨0, 0, 0⟩)), l.getD k ⟨0, 0, 0⟩) ∧
        distSq r g b (l.getD k ⟨0, 0, 0⟩) < m ∧
        (∀ j, j < k → distSq r g b (l.getD k ⟨0, 0, 0⟩) <
          distSq r g b (l.getD j ⟨0, 0, 0⟩)) ∧
        (∀ j, j < l.length → distSq r g b (l.getD k ⟨0, 0, 0⟩) ≤
          distSq r g b (l.getD j ⟨0, 0, 0⟩)))
  | [], m, c0 => Or.inl ⟨rfl, by simp⟩
  | c :: l, m, c0 => by
    have hstep : nearestStep r g b (some m, c0) c =
        if distSq r g b c < m then (some (distSq r g b c), c) else (some m, c0) := rfl
    rw [List.foldl_cons, hstep]
    by_cases hc : distSq r g b c < m
    · rw [if_pos hc]
      rcases foldl_nearestStep_cases r g b l (distSq r g b c) c with
        ⟨heq, hall⟩ | ⟨k, hk, heq, hlt, hstrict, hmin⟩
      · refine Or.inr ⟨0, by simp, ?_, ?_, ?_, ?_⟩
        · rw [heq]
          rfl
        · exact hc
        · intro j hj
          omega
        · intro j hj
          match j with
          | 0 => exact le_refl _
          | j' + 1 =>
            show distSq r g b c ≤ distSq r g b (l.getD j' ⟨0, 0, 0⟩)
            exact hall _ (getD_mem_of_lt l j' _ (by simpa using hj))
      · refine Or.inr ⟨k + 1, by simpa using hk, ?_, ?_, ?_, ?_⟩
        · rw [heq]
          rfl
        · exact lt_trans hlt hc
        · intro j hj
          match j with
          | 0 => exact hlt
          | j' + 1 => exact hstrict j' (by omega)
        · intro j hj
          match j with
          | 0 => exact le_of_lt hlt
          | j' + 1 => exact hmin j' (by simpa using hj)
    · rw [if_neg hc]
      rcases foldl_nearestStep_cases r g b l m c0 with
        ⟨heq, hall⟩ | ⟨k, hk, heq, hlt, hstrict, hmin⟩
      · refine Or.inl ⟨heq, ?_⟩
        intro x hx
        rcases List.mem_cons.mp hx with rfl | hx'
        · exact not_lt.mp hc
        · exact hall x hx'
      · refine Or.inr ⟨k + 1, by simpa using hk, heq, hlt, ?_, ?_⟩
        · intro j hj
          match j with
          | 0 => exact lt_of_lt_of_le hlt (not_lt.mp hc)
          | j' + 1 => exact hstrict j' (by omega)
        · intro j hj
          match j with
          | 0 => exact le_of_lt (lt_of_lt_of_le hlt (not_lt.mp hc))
          | j' + 1 => exact hmin j' (by simpa using hj)

/-- The specification wording of the remap rule: c is the entry of the
palette at some index k that minimizes the squared distance, every entry
before k being strictly farther (first minimal entry wins ties). -/
def isFirstNearest (palette : List Rgb) (r g b : ℕ) (c : Rgb) : Prop :=
  ∃ k, k < palette.length ∧ c = palette.getD k ⟨0, 0, 0⟩ ∧
    (∀ j, j < palette.length →
      distSq r g b c ≤ distSq r g b (palette.getD j ⟨0, 0, 0⟩)) ∧
    (∀ j, j < k → distSq r g b c < distSq r g b (palette.getD j ⟨0, 0, 0⟩))

/-- On a non-empty palette, the nearest-palette fold of the source returns
the first entry minimizing the squared distance. -/
lemma nearestColor_isFirstNearest (palette : List Rgb) (r g b : ℕ)
    (hne : palette ≠ []) : isFirstNearest palette r g b (nearestColor palette r g b) := by
  match palette, hne with
  | p0 :: rest, _ =>
    unfold nearestColor
    have h0 : (p0 :: rest).foldl (nearestStep r g b) (none, (p0 :: rest).headD ⟨0, 0, 0⟩) =
        rest.foldl (nearestStep r g b) (some (distSq r g b p0), p0) := rfl
    rw [h0]
    rcases foldl_nearestStep_cases r g b rest (distSq r g b p0) p0 with
      ⟨heq, hall⟩ | ⟨k, hk, heq, hlt, hstrict, hmin⟩
    · rw [heq]
      refine ⟨0, by simp, rfl, ?_, ?_⟩
      · intro j hj
        match j with
        | 0 => exact le_refl _
        | j' + 1 =>
          show distSq r g b p0 ≤ distSq r g b (rest.getD j' ⟨0, 0, 0⟩)
          exact hall _ (getD_mem_of_lt rest j' _ (by simpa using hj))
      · intro j hj
        omega
    · rw [heq]
      refine ⟨k + 1, by simpa using hk, rfl, ?_, ?_⟩
      · intro j hj
        match j with
        | 0 => exact le_of_lt hlt
        | j' + 1 => exact hmin j' (by simpa using hj)
      · intro j hj
        match j with
        | 0 => exact hlt
        | j' + 1 => exact hstrict j' (by omega)

/-- C5. Over a non-empty palette, remap preserves the buffer length; a pixel
with alpha 0 is zeroed on all four channels; any pixel with nonzero alpha
keeps its alpha and has its RGB replaced by the first palette entry
minimizing the squared Euclidean distance, so every opaque output pixel RGB
is exactly some palette entry. -/
theorem c5_remap_nearest (palette : List Rgb) (pd : List Rgba)
    (hne : palette ≠ []) :
    (remap palette pd).length = pd.length ∧
    ∀ i, i < pd.length →
      ((pd.getD i ⟨0, 0, 0, 0⟩).a = 0 →
        (remap palette pd).getD i ⟨0, 0, 0, 0⟩ = ⟨0, 0, 0, 0⟩) ∧
      ((pd.getD i ⟨0, 0, 0, 0⟩).a ≠ 0 →
        ((remap palette pd).getD i ⟨0, 0, 0, 0⟩).a = (pd.getD i ⟨0, 0, 0, 0⟩).a ∧
        isFirstNearest palette (pd.getD i ⟨0, 0, 0, 0⟩).r (pd.getD i ⟨0, 0, 0, 0⟩).g
          (pd.getD i ⟨0, 0, 0, 0⟩).b
          ⟨((remap palette pd).getD i ⟨0, 0, 0, 0⟩).r,
           ((remap palette pd).getD i ⟨0, 0, 0, 0⟩).g,
           ((remap palette pd).getD i ⟨0, 0, 0, 0⟩).b⟩ ∧
        (⟨((remap palette pd).getD i ⟨0, 0, 0, 0⟩).r,
          ((remap palette pd).getD i ⟨0, 0, 0, 0⟩).g,
          ((remap palette pd).getD i ⟨0, 0, 0, 0⟩).b⟩ : Rgb) ∈ palette) := by
  constructor
  · unfold remap
    rw [List.length_map]
  · intro i hi
    have hmap : (remap palette pd).getD i ⟨0, 0, 0, 0⟩ =
        (fun q : Rgba =>
          if q.a = 0 then (⟨0, 0, 0, 0⟩ : Rgba)
          else
            let c := nearestColor palette q.r q.g q.b
            ⟨c.r, c.g, c.b, q.a⟩) (pd.getD i ⟨0, 0, 0, 0⟩) :=
      getD_map_lt _ pd i _ _ hi
    constructor
    · intro ha
      rw [hmap]
      simp only [ha, if_true]
    · intro ha
      rw [hmap]
      simp only [ha, if_neg ha]
      have hn := nearestColor_isFirstNearest palette (pd.getD i ⟨0, 0, 0, 0⟩).r
        (pd.getD i ⟨0, 0, 0, 0⟩).g (pd.getD i ⟨0, 0, 0, 0⟩).b hne
      refine ⟨rfl, ?_, ?_⟩
      · exact hn
      · rcases hn with ⟨k, hk, hc, _, _⟩
        rw [hc]
        exact getD_mem_of_lt palette k _ hk

/-- Witness for C5: palette with two entries where the second ties the
first in distance; the first entry wins, the transparent pixel is zeroed,
and the opaque pixel keeps alpha 7. -/
theorem c5_remap_nearest_witness :
    (([⟨0, 0, 0⟩, ⟨2, 0, 0⟩] : List Rgb) ≠ []) ∧
    ((remap [⟨0, 0, 0⟩, ⟨2, 0, 0⟩] [⟨1, 0, 0, 7⟩, ⟨5, 5, 5, 0⟩]).length = 2 ∧
      ∀ i, i < 2 →
        ((([⟨1, 0, 0, 7⟩, ⟨5, 5, 5, 0⟩] : List Rgba).getD i ⟨0, 0, 0, 0⟩).a = 0 →
          (remap [⟨0, 0, 0⟩, ⟨2, 0, 0⟩] [⟨1, 0, 0, 7⟩, ⟨5, 5, 5, 0⟩]).getD i ⟨0, 0, 0, 0⟩ =
            ⟨0, 0, 0, 0⟩) ∧
        ((([⟨1, 0, 0, 7⟩, ⟨5, 5, 5, 0⟩] : List Rgba).getD i ⟨0, 0, 0, 0⟩).a ≠ 0 →
          ((remap [⟨0, 0, 0⟩, ⟨2, 0, 0⟩] [⟨1, 0, 0, 7⟩, ⟨5, 5, 5, 0⟩]).getD i
              ⟨0, 0, 0, 0⟩).a =
            (([⟨1, 0, 0, 7⟩, ⟨5, 5, 5, 0⟩] : List Rgba).getD i ⟨0, 0, 0, 0⟩).a ∧
          isFirstNearest [⟨0, 0, 0⟩, ⟨2, 0, 0⟩]
            (([⟨1, 0, 0, 7⟩, ⟨5, 5, 5, 0⟩] : List Rgba).getD i ⟨0, 0, 0, 0⟩).r
            (([⟨1, 0, 0, 7⟩, ⟨5, 5, 5, 0⟩] : List Rgba).getD i ⟨0, 0, 0, 0⟩).g
            (([⟨1, 0, 0, 7⟩, ⟨5, 5, 5, 0⟩] : List Rgba).getD i ⟨0, 0, 0, 0⟩).b
            ⟨((remap [⟨0, 0, 0⟩, ⟨2, 0, 0⟩] [⟨1, 0, 0, 7⟩, ⟨5, 5, 5, 0⟩]).getD i
                ⟨0, 0, 0, 0⟩).r,
             ((remap [⟨0, 0, 0⟩, ⟨2, 0, 0⟩] [⟨1, 0, 0, 7⟩, ⟨5, 5, 5, 0⟩]).getD i
                ⟨0, 0, 0, 0⟩).g,
             ((remap [⟨0, 0, 0⟩, ⟨2, 0, 0⟩] [⟨1, 0, 0, 7⟩, ⟨5, 5, 5, 0⟩]).getD i
                ⟨0, 0, 0, 0⟩).b⟩ ∧
          (⟨((remap [⟨0, 0, 0⟩, ⟨2, 0, 0⟩] [⟨1, 0, 0, 7⟩, ⟨5, 5, 5, 0⟩]).getD i
               ⟨0, 0, 0, 0⟩).r,
            ((remap [⟨0, 0, 0⟩, ⟨2, 0, 0⟩] [⟨1, 0, 0, 7⟩, ⟨5, 5, 5, 0⟩]).getD i
               ⟨0, 0, 0, 0⟩).g,
            ((remap [⟨0, 0, 0⟩, ⟨2, 0, 0⟩] [⟨1, 0, 0, 7⟩, ⟨5, 5, 5, 0⟩]).getD i
               ⟨0, 0, 0, 0⟩).b⟩ : Rgb) ∈ ([⟨0, 0, 0⟩, ⟨2, 0, 0⟩] : List Rgb))) :=
  ⟨by simp, c5_remap_nearest [⟨0, 0, 0⟩, ⟨2, 0, 0⟩] [⟨1, 0, 0, 7⟩, ⟨5, 5, 5, 0⟩] (by simp)⟩

/-! ## The remap loop as explicit state: frame effect on the input buffer -/

/-- Write of one RGBA quad at byte offset i into a byte-addressed buffer
(the four assignments newPixelData[i..i+3] = ... of lines 63-66 and 88-91). -/
def writeQuad (buf : ℕ → ℕ) (i r g b a : ℕ) : ℕ → ℕ := fun j =>
  if j = i then r
  else if j = i + 1 then g
  else if j = i + 2 then b
  else if j = i + 3 then a
  else buf j

/-- One iteration of the remap write loop (quantization.js lines 60-92) on
the state (input buffer, output buffer): it reads pixelData and writes only
the four bytes of the current quad of newPixelData. -/
def remapWriteStep (palette : List Rgb) (st : (ℕ → ℕ) × (ℕ → ℕ)) (i : ℕ) :
    (ℕ → ℕ) × (ℕ → ℕ) :=
  if st.1 (i + 3) = 0 then (st.1, writeQuad st.2 i 0 0 0 0)
  else
    let c := nearestColor palette (st.1 i) (st.1 (i + 1)) (st.1 (i + 2))
    (st.1, writeQuad st.2 i c.r c.g c.b (st.1 (i + 3)))

/-- The remap pass of quantizeImage (lines 50-94) over byte-addressed
buffers: newPixelData starts as a fresh zero buffer (new Uint8ClampedArray)
and the loop visits byte offsets 0, 4, ..., 4*(len-1); the returned pair is
(input buffer, new buffer), the second being the value the function
returns. -/
def remapLoopSt (palette : List Rgb) (inBuf : ℕ → ℕ) (len : ℕ) :
    (ℕ → ℕ) × (ℕ → ℕ) :=
  (List.range len).foldl (fun st k => remapWriteStep palette st (4 * k))
    (inBuf, fun _ => 0)

lemma remapWriteFold_fst (palette : List Rgb) :
    ∀ (l : List ℕ) (st : (ℕ → ℕ) × (ℕ → ℕ)),
      (l.foldl (fun st k => remapWriteStep palette st (4 * k)) st).1 = st.1
  | [], _ => rfl
  | k :: l, st => by
    rw [List.foldl_cons, remapWriteFold_fst palette l]
    unfold remapWriteStep
    by_cases h : st.1 (4 * k + 3) = 0
    · rw [if_pos h]
    · rw [if_neg h]

lemma remapWriteFold_snd_untouched (palette : List Rgb) (len : ℕ) :
    ∀ (l : List ℕ) (st : (ℕ → ℕ) × (ℕ → ℕ)) (j : ℕ), (∀ k ∈ l, k < len) →
      4 * len ≤ j →
      (l.foldl (fun st k => remapWriteStep palette st (4 * k)) st).2 j = st.2 j
  | [], _, _, _, _ => rfl
  | k :: l, st, j, hl, hj => by
    rw [List.foldl_cons,
      remapWriteFold_snd_untouched palette len l _ j (fun x hx => hl x (by simp [hx])) hj]
    have hk : k < len := hl k (by simp)
    have h0 : ¬ j = 4 * k := by omega
    have h1 : ¬ j = 4 * k + 1 := by omega
    have h2 : ¬ j = 4 * k + 2 := by omega
    have h3 : ¬ j = 4 * k + 3 := by omega
    unfold remapWriteStep writeQuad
    by_cases h : st.1 (4 * k + 3) = 0
    · rw [if_pos h]
      simp only [h0, h1, h2, h3, if_false]
    · rw [if_neg h]
      simp only [h0, h1, h2, h3, if_false]

/-- C9. The remap pass never mutates the caller-supplied input buffer: after
the full write loop every byte of the input buffer still has its original
value, and all writes went to the freshly allocated zero-initialized output
buffer, which is the buffer the function returns (bytes beyond the written
range still hold the fresh value 0).  The early-return paths of quantizeImage
return the input without any write at all. -/
theorem c9_remap_no_input_mutation (palette : List Rgb) (inBuf : ℕ → ℕ)
    (len : ℕ) :
    (∀ j, (remapLoopSt palette inBuf len).1 j = inBuf j) ∧
    (∀ j, 4 * len ≤ j → (remapLoopSt palette inBuf len).2 j = 0) := by
  constructor
  · intro j
    rw [remapLoopSt, remapWriteFold_fst]
  · intro j hj
    rw [remapLoopSt, remapWriteFold_snd_untouched palette len _ _ j
      (fun k hk => List.mem_range.mp hk) hj]

/-- Witness for C9: a concrete two-quad buffer; byte 3 of the input is
unchanged after the loop and byte 8 of the fresh output is untouched. -/
theorem c9_remap_no_input_mutation_witness :
    (remapLoopSt [⟨1, 2, 3⟩] (fun j => j + 40) 2).1 3 = 43 ∧
    (remapLoopSt [⟨1, 2, 3⟩] (fun j => j + 40) 2).2 8 = 0 :=
  ⟨(c9_remap_no_input_mutation [⟨1, 2, 3⟩] (fun j => j + 40) 2).1 3,
   (c9_remap_no_input_mutation [⟨1, 2, 3⟩] (fun j => j + 40) 2).2 8 (by norm_num)⟩

/-! ## Bounds of the relaxed points -/

lemma cellPixels_coord_bounds (v : Voronoi) (w h : ℕ) (i : ℕ)
    (poly : List (ℚ × ℚ)) (p : ℤ × ℤ) (hp : p ∈ cellPixels v w h i poly) :
    0 ≤ p.1 ∧ (p.1 : ℚ) ≤ (w : ℚ) - 1 ∧ 0 ≤ p.2 ∧ (p.2 : ℚ) ≤ (h : ℚ) - 1 := by
  have hbox : p ∈ cellBox w h poly := (Finset.mem_filter.mp hp).1
  rw [cellBox, Finset.mem_product, Finset.mem_Icc, Finset.mem_Icc] at hbox
  obtain ⟨⟨hx1, hx2⟩, hy1, hy2⟩ := hbox
  have hminX : (0 : ℤ) ≤ ⌊max 0 (polyBounds w h poly).1⌋ :=
    Int.le_floor.mpr (by exact_mod_cast le_max_left 0 (polyBounds w h poly).1)
  have hmaxX : ⌈min ((w : ℚ) - 1) (polyBounds w h poly).2.1⌉ ≤ (w : ℤ) - 1 :=
    Int.ceil_le.mpr (by push_cast; exact min_le_left _ _)
  have hminY : (0 : ℤ) ≤ ⌊max 0 (polyBounds w h poly).2.2.1⌋ :=
    Int.le_floor.mpr (by exact_mod_cast le_max_left 0 (polyBounds w h poly).2.2.1)
  have hmaxY : ⌈min ((h : ℚ) - 1) (polyBounds w h poly).2.2.2⌉ ≤ (h : ℤ) - 1 :=
    Int.ceil_le.mpr (by push_cast; exact min_le_left _ _)
  refine ⟨le_trans hminX hx1, ?_, le_trans hminY hy1, ?_⟩
  · have hq : p.1 ≤ (w : ℤ) - 1 := le_trans hx2 hmaxX
    exact_mod_cast hq
  · have hq : p.2 ≤ (h : ℤ) - 1 := le_trans hy2 hmaxY
    exact_mod_cast hq

lemma centroid_bounds (v : Voronoi) (pd : ℕ → ℕ) (w h : ℕ) (i : ℕ)
    (poly : List (ℚ × ℚ)) (hb : ∀ j, pd j ≤ 255)
    (hpos : 0 < cellWeightSum v pd w h i poly) :
    0 ≤ cellXSum v pd w h i poly / cellWeightSum v pd w h i poly ∧
    cellXSum v pd w h i poly / cellWeightSum v pd w h i poly ≤ (w : ℚ) - 1 ∧
    0 ≤ cellYSum v pd w h i poly / cellWeightSum v pd w h i poly ∧
    cellYSum v pd w h i poly / cellWeightSum v pd w h i poly ≤ (h : ℚ) - 1 := by
  have hwt : ∀ p ∈ cellPixels v w h i poly, 0 ≤ pixWeight pd w p.1 p.2 :=
    fun p _ => pixWeight_nonneg pd w p.1 p.2 hb
  have hx0 : 0 ≤ cellXSum v pd w h i poly := by
    apply Finset.sum_nonneg
    intro p hp
    have hc := cellPixels_coord_bounds v w h i poly p hp
    exact mul_nonneg (by exact_mod_cast hc.1) (hwt p hp)
  have hy0 : 0 ≤ cellYSum v pd w h i poly := by
    apply Finset.sum_nonneg
    intro p hp
    have hc := cellPixels_coord_bounds v w h i poly p hp
    exact mul_nonneg (by exact_mod_cast hc.2.2.1) (hwt p hp)
  have hxu : cellXSum v pd w h i poly ≤ ((w : ℚ) - 1) * cellWeightSum v pd w h i poly := by
    rw [cellWeightSum, Finset.mul_sum]
    apply Finset.sum_le_sum
    intro p hp
    have hc := cellPixels_coord_bounds v w h i poly p hp
    exact mul_le_mul_of_nonneg_right hc.2.1 (hwt p hp)
  have hyu : cellYSum v pd w h i poly ≤ ((h : ℚ) - 1) * cellWeightSum v pd w h i poly := by
    rw [cellWeightSum, Finset.mul_sum]
    apply Finset.sum_le_sum
    intro p hp
    have hc := cellPixels_coord_bounds v w h i poly p hp
    exact mul_le_mul_of_nonneg_right hc.2.2.2 (hwt p hp)
  exact ⟨div_nonneg hx0 (le_of_lt hpos), (div_le_iff₀ hpos).mpr hxu,
    div_nonneg hy0 (le_of_lt hpos), (div_le_iff₀ hpos).mpr hyu⟩

/-- C10. With a well-formed byte buffer, every point returned by relaxPoints
either equals the previous coordinates of its site (the zero-weight
fallback) or lies within [0, width-1] x [0, height-1]; in particular when
all input sites lie in that rectangle, every output point does. -/
theorem c10_relax_in_bounds (v : Voronoi) (pd : ℕ → ℕ) (w h : ℕ)
    (hb : ∀ j, pd j ≤ 255) :
    (∀ p ∈ relaxPoints v pd w h,
      (∃ i, i < v.points.length ∧ p = v.points.getD i (0, 0)) ∨
      (0 ≤ p.1 ∧ p.1 ≤ (w : ℚ) - 1 ∧ 0 ≤ p.2 ∧ p.2 ≤ (h : ℚ) - 1)) ∧
    ((∀ i, i < v.points.length →
        0 ≤ (v.points.getD i (0, 0)).1 ∧ (v.points.getD i (0, 0)).1 ≤ (w : ℚ) - 1 ∧
        0 ≤ (v.points.getD i (0, 0)).2 ∧ (v.points.getD i (0, 0)).2 ≤ (h : ℚ) - 1) →
      ∀ p ∈ relaxPoints v pd w h,
        0 ≤ p.1 ∧ p.1 ≤ (w : ℚ) - 1 ∧ 0 ≤ p.2 ∧ p.2 ≤ (h : ℚ) - 1) := by
  have hmain : ∀ p ∈ relaxPoints v pd w h,
      (∃ i, i < v.points.length ∧ p = v.points.getD i (0, 0)) ∨
      (0 ≤ p.1 ∧ p.1 ≤ (w : ℚ) - 1 ∧ 0 ≤ p.2 ∧ p.2 ≤ (h : ℚ) - 1) := by
    intro p hp
    unfold relaxPoints at hp
    obtain ⟨i, hir, hfi⟩ := List.mem_filterMap.mp hp
    have hi : i < v.points.length := List.mem_range.mp hir
    match hcp : v.cellPolygon i with
    | none => rw [hcp] at hfi; exact absurd hfi (by simp)
    | some poly =>
      rw [hcp] at hfi
      have hps : p = relaxSite v pd w h i poly := by
        have := Option.some.inj hfi
        exact this.symm
      rw [hps, relaxSite_spec]
      by_cases hpos : 0 < cellWeightSum v pd w h i poly
      · rw [if_pos hpos]
        exact Or.inr (centroid_bounds v pd w h i poly hb hpos)
      · rw [if_neg hpos]
        exact Or.inl ⟨i, hi, rfl⟩
  refine ⟨hmain, ?_⟩
  intro hsites p hp
  rcases hmain p hp with ⟨i, hi, rfl⟩ | hbnd
  · exact hsites i hi
  · exact hbnd

/-- Witness for C10: at the C1 instance (one site, 2x2 black buffer), the
first returned point either is the original site or lies in [0, 1] x [0, 1]
(width = height = 2). -/
theorem c10_relax_in_bounds_witness :
    (∃ i, i < ([((0 : ℚ), (0 : ℚ))] : List (ℚ × ℚ)).length ∧
      (relaxPoints ⟨[(0, 0)], fun _ => some [(0, 0), (2, 0), (0, 2)], fun _ _ _ => true⟩
          (fun _ => 0) 2 2).getD 0 (0, 0) =
        ([((0 : ℚ), (0 : ℚ))] : List (ℚ × ℚ)).getD i (0, 0)) ∨
    (0 ≤ ((relaxPoints ⟨[(0, 0)], fun _ => some [(0, 0), (2, 0), (0, 2)], fun _ _ _ => true⟩
          (fun _ => 0) 2 2).getD 0 (0, 0)).1 ∧
      ((relaxPoints ⟨[(0, 0)], fun _ => some [(0, 0), (2, 0), (0, 2)], fun _ _ _ => true⟩
          (fun _ => 0) 2 2).getD 0 (0, 0)).1 ≤ (2 : ℚ) - 1 ∧
      0 ≤ ((relaxPoints ⟨[(0, 0)], fun _ => some [(0, 0), (2, 0), (0, 2)], fun _ _ _ => true⟩
          (fun _ => 0) 2 2).getD 0 (0, 0)).2 ∧
      ((relaxPoints ⟨[(0, 0)], fun _ => some [(0, 0), (2, 0), (0, 2)], fun _ _ _ => true⟩
          (fun _ => 0) 2 2).getD 0 (0, 0)).2 ≤ (2 : ℚ) - 1) := by
  have hlen : (relaxPoints ⟨[(0, 0)], fun _ => some [(0, 0), (2, 0), (0, 2)],
      fun _ _ _ => true⟩ (fun _ => 0) 2 2).length = 1 := by
    rw [relaxPoints_eq_map _ _ 2 2 (fun _ => [(0, 0), (2, 0), (0, 2)]) (fun _ _ => rfl)]
    rfl
  exact (c10_relax_in_bounds ⟨[(0, 0)], fun _ => some [(0, 0), (2, 0), (0, 2)],
      fun _ _ _ => true⟩ (fun _ => 0) 2 2 (fun _ => Nat.zero_le 255)).1 _
    (getD_mem_of_lt _ 0 (0, 0) (by rw [hlen]; norm_num))

/-! ## App.jsx: hex lattice enumeration -/

/-- Integer loop values lo, lo+1, ... strictly below a rational bound, in
order; models a JS loop for (r = lo; r < bound; r++). -/
def intRangeLt (lo : ℤ) (bound : ℚ) : List ℤ :=
  (List.range (⌈bound⌉ - lo).toNat).map (fun (k : ℕ) => lo + (k : ℤ))

lemma mem_intRangeLt {lo : ℤ} {bound : ℚ} {r : ℤ} :
    r ∈ intRangeLt lo bound ↔ lo ≤ r ∧ (r : ℚ) < bound := by
  constructor
  · intro hx
    obtain ⟨k, hk, hkx⟩ := List.mem_map.mp hx
    rw [List.mem_range] at hk
    have hceil : r < ⌈bound⌉ := by omega
    exact ⟨by omega, Int.lt_ceil.mp hceil⟩
  · intro hr
    have hceil : r < ⌈bound⌉ := Int.lt_ceil.mpr hr.2
    exact List.mem_map.mpr ⟨(r - lo).toNat, List.mem_range.mpr (by omega), by omega⟩

lemma pairwise_intRangeLt (lo : ℤ) (bound : ℚ) :
    (intRangeLt lo bound).Pairwise (· < ·) := by
  unfold intRangeLt
  rw [List.pairwise_map]
  exact (List.pairwise_lt_range _).imp (by omega)

lemma tmod_two_eq_zero_iff_even (r : ℤ) : r.tmod 2 = 0 ↔ Even r := by
  constructor
  · intro hr
    exact even_iff_two_dvd.mpr (Int.dvd_of_tmod_eq_zero hr)
  · intro he
    exact Int.tmod_eq_zero_of_dvd (even_iff_two_dvd.mp he)

lemma hexOffset_eq (row : ℤ) (a b : ℚ) :
    (if row.tmod 2 = 0 then a else b) = (if Even row then a else b) := by
  by_cases he : Even row
  · rw [if_pos ((tmod_two_eq_zero_iff_even row).mpr he), if_pos he]
  · rw [if_neg (fun hc => he ((tmod_two_eq_zero_iff_even row).mp hc)), if_neg he]

/-- Hex lattice enumeration of renderScene (App.jsx lines 167-184): rows
from -1 while row < height/vSpacing + 1, columns from -1 while
col < width/hSpacing + 1, with hSpacing = scale*sqrt(3) and
vSpacing = scale*1.5; x = col*hSpacing plus hSpacing/2 on rows with
row % 2 != 0, y = row*vSpacing.  sqrt3 is a parameter standing for the
float Math.sqrt(3); the emitted tuple is (col, row, x, y). -/
def hexCenters (w h size sqrt3 : ℚ) : List (ℤ × ℤ × ℚ × ℚ) :=
  (intRangeLt (-1) (h / (size * 1.5) + 1)).flatMap fun row =>
    (intRangeLt (-1) (w / (size * sqrt3) + 1)).map fun col =>
      (col, row,
        (col : ℚ) * (size * sqrt3) + (if row.tmod 2 = 0 then 0 else (size * sqrt3) / 2),
        (row : ℚ) * (size * 1.5))

/-- C8. The hex lattice enumeration is a pure function of
(width, height, size): a tuple (col, row, x, y) is emitted exactly when
-1 <= col < width/(size*sqrt3) + 1 and -1 <= row < height/(size*1.5) + 1
(one extra row and column of padding past each canvas edge) with
x = col*size*sqrt3 plus half the horizontal spacing on odd rows and
y = row*size*1.5; and the emission order is row-major (row strictly
increasing, column strictly increasing within a row).  Determinism is
definitional: two calls with the same arguments denote the same list. -/
theorem c8_hex_lattice (w h size sqrt3 : ℚ) (_hs : 0 < size) (_hq : 0 < sqrt3) :
    (∀ col row x y, (col, row, x, y) ∈ hexCenters w h size sqrt3 ↔
      (-1 ≤ col ∧ (col : ℚ) < w / (size * sqrt3) + 1 ∧
       -1 ≤ row ∧ (row : ℚ) < h / (size * 1.5) + 1 ∧
       x = (col : ℚ) * (size * sqrt3) + (if Even row then 0 else (size * sqrt3) / 2) ∧
       y = (row : ℚ) * (size * 1.5))) ∧
    (hexCenters w h size sqrt3).Pairwise (fun p q =>
      p.2.1 < q.2.1 ∨ (p.2.1 = q.2.1 ∧ p.1 < q.1)) := by
  constructor
  · intro col row x y
    unfold hexCenters
    rw [List.mem_flatMap]
    constructor
    · rintro ⟨row', hrow', hmem⟩
      obtain ⟨col', hcol', heq⟩ := List.mem_map.mp hmem
      rw [Prod.mk.injEq, Prod.mk.injEq, Prod.mk.injEq] at heq
      obtain ⟨rfl, rfl, hx, hy⟩ := heq
      obtain ⟨hr1, hr2⟩ := mem_intRangeLt.mp hrow'
      obtain ⟨hc1, hc2⟩ := mem_intRangeLt.mp hcol'
      rw [hexOffset_eq] at hx
      exact ⟨hc1, hc2, hr1, hr2, hx.symm, hy.symm⟩
    · rintro ⟨h1, h2, h3, h4, rfl, rfl⟩
      refine ⟨row, mem_intRangeLt.mpr ⟨h3, h4⟩,
        List.mem_map.mpr ⟨col, mem_intRangeLt.mpr ⟨h1, h2⟩, ?_⟩⟩
      rw [hexOffset_eq]
  · unfold hexCenters
    rw [List.pairwise_flatMap]
    constructor
    · intro row _
      rw [List.pairwise_map]
      apply (pairwise_intRangeLt (-1) (w / (size * sqrt3) + 1)).imp
      intro a b hab
      exact Or.inr ⟨rfl, hab⟩
    · apply (pairwise_intRangeLt (-1) (h / (size * 1.5) + 1)).imp
      intro r1 r2 hr x hx y hy
      obtain ⟨c1, _, hxe⟩ := List.mem_map.mp hx
      obtain ⟨c2, _, hye⟩ := List.mem_map.mp hy
      rw [← hxe, ← hye]
      exact Or.inl hr

/-- Witness for C8 at width 4, height 3, size 1, sqrt3 modelled as 7/4: the
hypotheses hold, the origin center (0, 0, 0, 0) is emitted, and the whole
enumeration is in row-major order. -/
theorem c8_hex_lattice_witness :
    ((0 : ℚ) < 1 ∧ (0 : ℚ) < 7 / 4) ∧
    ((0 : ℤ), (0 : ℤ), (0 : ℚ), (0 : ℚ)) ∈ hexCenters 4 3 1 (7 / 4) ∧
    (hexCenters 4 3 1 (7 / 4)).Pairwise (fun p q =>
      p.2.1 < q.2.1 ∨ (p.2.1 = q.2.1 ∧ p.1 < q.1)) := by
  have h := c8_hex_lattice 4 3 1 (7 / 4) (by norm_num) (by norm_num)
  refine ⟨⟨by norm_num, by norm_num⟩, ?_, h.2⟩
  apply (h.1 0 0 0 0).mpr
  refine ⟨by norm_num, by norm_num, by norm_num, by norm_num, ?_, by norm_num⟩
  rw [if_pos even_zero]
  norm_num

end LatticeMorph
